import Mathlib

/-!
Verification of the GBM data-primitive layer: TimeRange, GTI, 1D/2D
histogram bins and event lists, with the structural invariants and
algebraic properties the documentation states for them.  Times and
energies are modelled as rationals, counts as naturals, and fallible
operations return `Except`.
-/

namespace GbmPrimitives

instance {ε α : Type} [DecidableEq ε] [DecidableEq α] : DecidableEq (Except ε α) :=
  fun a b =>
    match a, b with
    | .error e, .error e' =>
      match decEq e e' with
      | .isTrue h => .isTrue (by rw [h])
      | .isFalse h => .isFalse (by intro hc; cases hc; exact h rfl)
    | .error _, .ok _ => .isFalse (by intro hc; cases hc)
    | .ok _, .error _ => .isFalse (by intro hc; cases hc)
    | .ok x, .ok y =>
      match decEq x y with
      | .isTrue h => .isTrue (by rw [h])
      | .isFalse h => .isFalse (by intro hc; cases hc; exact h rfl)

/-- Modelled from the spec: `TimeRange` (the class is not shipped in this
repository snapshot, only exercised by the notebook).  A single closed
interval `[start, stop]`. -/
structure TimeRange where
  start : ℚ
  stop : ℚ
deriving DecidableEq, Repr

namespace TimeRange

/-- Modelled from the spec: `duration = stop - start`. -/
def duration (t : TimeRange) : ℚ := t.stop - t.start

/-- Modelled from the spec: `center = (start + stop) / 2`. -/
def center (t : TimeRange) : ℚ := (t.start + t.stop) / 2

/-- Modelled from the spec: `contains(t)` is inclusive on both ends. -/
def containsTime (t : TimeRange) (x : ℚ) : Prop := t.start ≤ x ∧ x ≤ t.stop

instance : DecidablePred fun p : TimeRange × ℚ => containsTime p.1 p.2 :=
  fun p => inferInstanceAs (Decidable (p.1.start ≤ p.2 ∧ p.2 ≤ p.1.stop))

/-- Modelled from the spec: `union(a, b)` is the bounding span. -/
def union (a b : TimeRange) : TimeRange := ⟨min a.start b.start, max a.stop b.stop⟩

/-- Modelled from the spec: `intersection(a, b)` returns
`(max(a.start, b.start), min(a.stop, b.stop))` unconditionally. -/
def intersection (a b : TimeRange) : TimeRange :=
  ⟨max a.start b.start, min a.stop b.stop⟩

/-- A valid range has `start ≤ stop`. -/
def isValid (t : TimeRange) : Prop := t.start ≤ t.stop

instance : DecidablePred isValid := fun t => inferInstanceAs (Decidable (t.start ≤ t.stop))

/-- Two closed intervals share at least one point. -/
def overlaps (a b : TimeRange) : Prop := a.start ≤ b.stop ∧ b.start ≤ a.stop

instance : ∀ a b, Decidable (overlaps a b) :=
  fun a b => inferInstanceAs (Decidable (a.start ≤ b.stop ∧ b.start ≤ a.stop))

/-- Total order used to sort intervals: ascending by `start`, ties broken
by `stop`. -/
def le (a b : TimeRange) : Prop :=
  a.start < b.start ∨ (a.start = b.start ∧ a.stop ≤ b.stop)

instance : DecidableRel le :=
  fun a b =>
    inferInstanceAs (Decidable (a.start < b.start ∨ (a.start = b.start ∧ a.stop ≤ b.stop)))

instance : IsTotal TimeRange le := by
  constructor
  intro a b
  rcases lt_trichotomy a.start b.start with h | h | h
  · exact Or.inl (Or.inl h)
  · rcases le_total a.stop b.stop with h' | h'
    · exact Or.inl (Or.inr ⟨h, h'⟩)
    · exact Or.inr (Or.inr ⟨h.symm, h'⟩)
  · exact Or.inr (Or.inl h)

instance : IsTrans TimeRange le := by
  constructor
  intro a b c hab hbc
  rcases hab with h1 | ⟨h1, h1'⟩ <;> rcases hbc with h2 | ⟨h2, h2'⟩
  · exact Or.inl (h1.trans h2)
  · exact Or.inl (h2 ▸ h1)
  · exact Or.inl (h1 ▸ h2)
  · exact Or.inr ⟨h1.trans h2, h1'.trans h2'⟩

instance : IsAntisymm TimeRange le := by
  constructor
  intro a b hab hba
  rcases hab with h1 | ⟨h1, h1'⟩ <;> rcases hba with h2 | ⟨h2, h2'⟩
  · exact absurd (h1.trans h2) (lt_irrefl _)
  · exact absurd h1 (h2 ▸ lt_irrefl _)
  · exact absurd h2 (h1 ▸ lt_irrefl _)
  · cases a; cases b
    simp only [TimeRange.mk.injEq]
    exact ⟨h1, le_antisymm h1' h2'⟩

/-- Strict-gap relation between successive GTI intervals. -/
def gap (a b : TimeRange) : Prop := a.stop < b.start

instance : DecidableRel gap := fun a b => inferInstanceAs (Decidable (a.stop < b.start))

end TimeRange

/-- Modelled from the spec: `GTI` (implementation not shipped in this
repository snapshot) owns an ordered sequence of disjoint `TimeRange`s. -/
structure GTI where
  intervals : List TimeRange
deriving DecidableEq, Repr

namespace GTI

/-- Collapse pass: walk the (sorted) interval list, merging each interval
into the current one while they overlap or touch, emitting the current
interval when a strict gap appears. -/
def collapse : TimeRange → List TimeRange → List TimeRange
  | cur, [] => [cur]
  | cur, r :: rs =>
    if r.start ≤ cur.stop then collapse ⟨cur.start, max cur.stop r.stop⟩ rs
    else cur :: collapse r rs

/-- Sort the interval list and collapse overlapping or touching intervals. -/
def normalize (l : List TimeRange) : List TimeRange :=
  match List.insertionSort TimeRange.le l with
  | [] => []
  | r :: rs => collapse r rs

/-- Modelled from the spec: `GTI.insert(start, stop)` fails with
`InvalidInterval` when `start ≥ stop`, otherwise adds the interval,
re-sorts and collapses to restore the disjoint/sorted invariant. -/
def insert (g : GTI) (s e : ℚ) : Except String GTI :=
  if e ≤ s then .error "InvalidInterval"
  else .ok ⟨normalize (⟨s, e⟩ :: g.intervals)⟩

/-- Modelled from the spec: `GTI.merge(a, b)` collects every interval of
both inputs, sorts ascending and collapses overlapping or touching
intervals into one. -/
def merge (a b : GTI) : GTI := ⟨normalize (a.intervals ++ b.intervals)⟩

/-- Modelled from the spec: `as_list()` returns the `(start, stop)` pairs. -/
def as_list (g : GTI) : List (ℚ × ℚ) := g.intervals.map fun r => (r.start, r.stop)

/-- Modelled from the spec: `from_list` builds a GTI from `(start, stop)`
pairs. -/
def from_list (l : List (ℚ × ℚ)) : GTI := ⟨l.map fun p => ⟨p.1, p.2⟩⟩

/-- Modelled from the spec: `contains(t)` holds when some interval holds `t`. -/
def containsTime (g : GTI) (x : ℚ) : Prop :=
  ∃ r ∈ g.intervals, r.containsTime x

/-- Modelled from the spec: number of disjoint intervals. -/
def num_intervals (g : GTI) : ℕ := g.intervals.length

/-- Modelled from the spec: `range = (first.start, last.stop)`. -/
def gtirange (g : GTI) : Option (ℚ × ℚ) :=
  match g.intervals.head?, g.intervals.getLast? with
  | some a, some b => some (a.start, b.stop)
  | _, _ => none

/-- The documented GTI invariant: every interval is proper and adjacent
intervals are separated by a strict gap. -/
def valid (g : GTI) : Prop :=
  (∀ r ∈ g.intervals, r.start < r.stop) ∧ g.intervals.Chain' TimeRange.gap

/-- Executable adjacent strict-gap check. -/
def gapChainB : List TimeRange → Bool
  | [] => true
  | [_] => true
  | a :: b :: t => decide (TimeRange.gap a b) && gapChainB (b :: t)

/-- Executable form of the GTI invariant. -/
def validB (g : GTI) : Bool :=
  g.intervals.all (fun r => decide (r.start < r.stop)) && gapChainB g.intervals

theorem gapChainB_iff : ∀ l : List TimeRange, gapChainB l = true ↔ l.Chain' TimeRange.gap := by
  intro l
  induction l with
  | nil => simp [gapChainB]
  | cons a t ih =>
    cases t with
    | nil => simp [gapChainB]
    | cons b t' =>
      rw [List.chain'_cons, ← ih]
      simp [gapChainB]

theorem validB_iff (g : GTI) : validB g = true ↔ valid g := by
  rw [validB, valid, Bool.and_eq_true, List.all_eq_true, ← gapChainB_iff]
  simp

theorem collapse_head_start :
    ∀ (rest : List TimeRange) (cur : TimeRange),
      ∃ h t, collapse cur rest = h :: t ∧ h.start = cur.start := by
  intro rest
  induction rest with
  | nil => intro cur; exact ⟨cur, [], rfl, rfl⟩
  | cons r rs ih =>
    intro cur
    by_cases h : r.start ≤ cur.stop
    · obtain ⟨h', t', heq, hst⟩ := ih ⟨cur.start, max cur.stop r.stop⟩
      exact ⟨h', t', by simp [collapse, h, heq], hst⟩
    · obtain ⟨h', t', heq, hst⟩ := ih r
      exact ⟨cur, collapse r rs, by simp [collapse, h], rfl⟩

theorem collapse_valid_chain :
    ∀ (rest : List TimeRange) (cur : TimeRange),
      cur.start < cur.stop → (∀ r ∈ rest, r.start < r.stop) →
      (∀ r ∈ collapse cur rest, r.start < r.stop) ∧
        (collapse cur rest).Chain' TimeRange.gap := by
  intro rest
  induction rest with
  | nil =>
    intro cur hcur _
    refine ⟨?_, ?_⟩
    · intro r hr
      simp only [collapse, List.mem_singleton] at hr
      exact hr ▸ hcur
    · simp [collapse]
  | cons r rs ih =>
    intro cur hcur hrest
    have hr : r.start < r.stop := hrest r (List.mem_cons_self _ _)
    have hrs : ∀ x ∈ rs, x.start < x.stop := fun x hx => hrest x (List.mem_cons_of_mem _ hx)
    by_cases h : r.start ≤ cur.stop
    · have hm : (⟨cur.start, max cur.stop r.stop⟩ : TimeRange).start <
          (⟨cur.start, max cur.stop r.stop⟩ : TimeRange).stop :=
        lt_of_lt_of_le hcur (le_max_left _ _)
      have := ih ⟨cur.start, max cur.stop r.stop⟩ hm hrs
      simpa [collapse, h] using this
    · obtain ⟨hv, hc⟩ := ih r hr hrs
      obtain ⟨hd, td, heq, hst⟩ := collapse_head_start rs r
      refine ⟨?_, ?_⟩
      · intro x hx
        simp only [collapse, if_neg h, List.mem_cons] at hx
        rcases hx with rfl | hx
        · exact hcur
        · exact hv x hx
      · simp only [collapse, if_neg h, heq]
        refine List.Chain'.cons ?_ (heq ▸ hc)
        show cur.stop < hd.start
        rw [hst]
        exact lt_of_not_le h

theorem normalize_valid (l : List TimeRange) (hl : ∀ r ∈ l, r.start < r.stop) :
    (∀ r ∈ normalize l, r.start < r.stop) ∧ (normalize l).Chain' TimeRange.gap := by
  have hperm : ∀ r ∈ List.insertionSort TimeRange.le l, r.start < r.stop := by
    intro r hr
    exact hl r ((List.perm_insertionSort TimeRange.le l).mem_iff.mp hr)
  unfold normalize
  cases hs : List.insertionSort TimeRange.le l with
  | nil => simp
  | cons a rest =>
    have ha : a.start < a.stop := hperm a (hs ▸ List.mem_cons_self _ _)
    have hrest : ∀ r ∈ rest, r.start < r.stop :=
      fun r hr => hperm r (hs ▸ List.mem_cons_of_mem _ hr)
    exact collapse_valid_chain rest a ha hrest

theorem chain_gap_sorted :
    ∀ l : List TimeRange, (∀ r ∈ l, r.start < r.stop) → l.Chain' TimeRange.gap →
      l.Chain' fun a b => a.start < b.start := by
  intro l
  induction l with
  | nil => intro _ _; simp
  | cons a t ih =>
    intro hv hc
    cases t with
    | nil => simp
    | cons b t' =>
      rw [List.chain'_cons] at hc ⊢
      refine ⟨?_, ih (fun r hr => hv r (List.mem_cons_of_mem _ hr)) hc.2⟩
      exact lt_trans (hv a (List.mem_cons_self _ _)) hc.1

theorem valid_sorted_starts (g : GTI) (hg : valid g) :
    g.intervals.Chain' fun a b => a.start < b.start :=
  chain_gap_sorted g.intervals hg.1 hg.2

theorem insert_valid (g : GTI) (hg : ∀ r ∈ g.intervals, r.start < r.stop)
    (s e : ℚ) (hse : s < e) :
    ∃ g', insert g s e = Except.ok g' ∧ valid g' := by
  refine ⟨⟨normalize (⟨s, e⟩ :: g.intervals)⟩, ?_, ?_⟩
  · simp [insert, not_le.mpr hse]
  · have hall : ∀ r ∈ (⟨s, e⟩ : TimeRange) :: g.intervals, r.start < r.stop := by
      intro r hr
      rcases List.mem_cons.mp hr with rfl | hr
      · exact hse
      · exact hg r hr
    exact normalize_valid _ hall

end GTI

/-- GTI built in the notebook: `(0, 10)` with `(23, 55)` inserted. -/
def exampleGTI1 : GTI := ⟨[⟨0, 10⟩, ⟨23, 55⟩]⟩

/-- GTI built in the notebook from `[(100,200), (250,275), (507,508)]`. -/
def exampleGTI2 : GTI := ⟨[⟨100, 200⟩, ⟨250, 275⟩, ⟨507, 508⟩]⟩

/-- C1: after any sequence of successful `insert(start, stop)` calls with
`start < stop` on a valid GTI, every interval is proper, adjacent
intervals keep a strict gap (`gti[i].stop < gti[i+1].start`, so nothing
overlaps or touches), and the sequence is sorted ascending by start. -/
theorem gti_insert_sequence (g : GTI) (hg : GTI.valid g) (ops : List (ℚ × ℚ))
    (hops : ∀ p ∈ ops, p.1 < p.2) :
    ∃ g', List.foldlM (fun acc p => GTI.insert acc p.1 p.2) g ops = Except.ok g' ∧
      GTI.valid g' ∧ g'.intervals.Chain' fun a b => a.start < b.start := by
  induction ops generalizing g with
  | nil =>
    exact ⟨g, rfl, hg, GTI.valid_sorted_starts g hg⟩
  | cons p ps ih =>
    obtain ⟨g₁, hins, hv₁⟩ :=
      GTI.insert_valid g hg.1 p.1 p.2 (hops p (List.mem_cons_self _ _))
    obtain ⟨g', hfold, hv', hs'⟩ :=
      ih g₁ hv₁ fun q hq => hops q (List.mem_cons_of_mem _ hq)
    refine ⟨g', ?_, hv', hs'⟩
    simp only [List.foldlM_cons, hins]
    exact hfold

theorem gti_insert_sequence_witness :
    GTI.valid exampleGTI1 ∧ (∀ p ∈ [((100 : ℚ), (200 : ℚ)), (5, 30)], p.1 < p.2) ∧
      ∃ g', List.foldlM (fun acc p => GTI.insert acc p.1 p.2) exampleGTI1
          [((100 : ℚ), (200 : ℚ)), (5, 30)] = Except.ok g' ∧
        GTI.valid g' ∧ g'.intervals.Chain' fun a b => a.start < b.start :=
  ⟨(GTI.validB_iff exampleGTI1).mp (by decide), by decide,
    gti_insert_sequence exampleGTI1 ((GTI.validB_iff exampleGTI1).mp (by decide)) _
      (by decide)⟩

/-- C6: `GTI.merge` is commutative — `merge(a, b)` and `merge(b, a)` have
identical `as_list()` results — and for proper input intervals the merged
GTI satisfies the collapsed, sorted, strict-gap invariant. -/
theorem gti_merge_comm (a b : GTI) :
    (GTI.merge a b).as_list = (GTI.merge b a).as_list ∧
      ((∀ r ∈ a.intervals ++ b.intervals, r.start < r.stop) →
        GTI.valid (GTI.merge a b) ∧
          (GTI.merge a b).intervals.Chain' fun x y => x.start < y.start) := by
  have hsort : List.insertionSort TimeRange.le (a.intervals ++ b.intervals) =
      List.insertionSort TimeRange.le (b.intervals ++ a.intervals) := by
    refine List.eq_of_perm_of_sorted (r := TimeRange.le) ?_ ?_ ?_
    · exact ((List.perm_insertionSort _ _).trans List.perm_append_comm).trans
        (List.perm_insertionSort _ _).symm
    · exact List.sorted_insertionSort _ _
    · exact List.sorted_insertionSort _ _
  have hmerge : GTI.merge a b = GTI.merge b a := by
    simp only [GTI.merge, GTI.normalize, hsort]
  refine ⟨by rw [hmerge], ?_⟩
  intro hall
  have hv := GTI.normalize_valid (a.intervals ++ b.intervals) hall
  exact ⟨hv, GTI.chain_gap_sorted _ hv.1 hv.2⟩

theorem gti_merge_comm_witness :
    (GTI.merge exampleGTI1 exampleGTI2).as_list =
        (GTI.merge exampleGTI2 exampleGTI1).as_list ∧
      GTI.valid (GTI.merge exampleGTI1 exampleGTI2) :=
  ⟨(gti_merge_comm exampleGTI1 exampleGTI2).1,
    ((gti_merge_comm exampleGTI1 exampleGTI2).2 (by decide)).1⟩

/-- Times sliced from the notebook examples, used for concrete checks. -/
theorem gti_notebook_example :
    ∃ g', GTI.insert ⟨[⟨0, 10⟩]⟩ 23 55 = Except.ok g' ∧
      g'.num_intervals = 2 ∧ g'.gtirange = some (0, 55) ∧
      (GTI.merge g' exampleGTI2).num_intervals = 5 ∧
      (GTI.merge g' exampleGTI2).gtirange = some (0, 508) := by
  refine ⟨⟨[⟨0, 10⟩, ⟨23, 55⟩]⟩, by decide, by decide, by decide, ?_, ?_⟩ <;> decide

/-- C7: `TimeRange.intersection` always returns
`(max(a.start, b.start), min(a.stop, b.stop))`; for valid but disjoint
inputs the result is degenerate (`start > stop`) rather than an error. -/
theorem timerange_intersection_spec (a b : TimeRange) :
    TimeRange.intersection a b = ⟨max a.start b.start, min a.stop b.stop⟩ ∧
      (¬ TimeRange.overlaps a b →
        (TimeRange.intersection a b).stop < (TimeRange.intersection a b).start) := by
  refine ⟨rfl, ?_⟩
  intro h
  rw [TimeRange.overlaps, not_and_or, not_le, not_le] at h
  show min a.stop b.stop < max a.start b.start
  rcases h with h | h
  · exact lt_of_le_of_lt (min_le_right _ _) (lt_of_lt_of_le h (le_max_left _ _))
  · exact lt_of_le_of_lt (min_le_left _ _) (lt_of_lt_of_le h (le_max_right _ _))

theorem timerange_intersection_spec_witness :
    TimeRange.intersection ⟨0, 1⟩ ⟨2, 3⟩ = ⟨max (0 : ℚ) 2, min (1 : ℚ) 3⟩ ∧
      (¬ TimeRange.overlaps ⟨0, 1⟩ ⟨2, 3⟩ →
        (TimeRange.intersection ⟨0, 1⟩ ⟨2, 3⟩).stop <
          (TimeRange.intersection ⟨0, 1⟩ ⟨2, 3⟩).start) :=
  timerange_intersection_spec ⟨0, 1⟩ ⟨2, 3⟩

/-- Modelled from the spec: one bin of a 1D histogram — a count, a pair of
edges with `lo < hi`, and an exposure.  The spec's parallel arrays
`counts/lo_edges/hi_edges/exposure` are realized index-by-index as a list
of these records. -/
structure Bin where
  counts : ℕ
  lo : ℚ
  hi : ℚ
  exposure : ℚ
deriving DecidableEq, Repr

/-- Modelled from the spec: `Bins`, the shared 1D histogram base of
`TimeBins` and `EnergyBins` (implementation not shipped in this repository
snapshot). -/
structure Bins where
  bins : List Bin
deriving DecidableEq, Repr

/-- TimeBins and EnergyBins share the Bins data layout; they differ only in
derived centroid/rate formulas, which none of the verified operations use. -/
abbrev TimeBins := Bins

/-- Energy-axis specialization of `Bins` (same data layout). -/
abbrev EnergyBins := Bins

namespace Bins

/-- The `counts` array. -/
def counts (b : Bins) : List ℕ := b.bins.map Bin.counts

/-- The `lo_edges` array. -/
def lo_edges (b : Bins) : List ℚ := b.bins.map Bin.lo

/-- The `hi_edges` array. -/
def hi_edges (b : Bins) : List ℚ := b.bins.map Bin.hi

/-- The `exposure` array. -/
def exposure (b : Bins) : List ℚ := b.bins.map Bin.exposure

/-- Number of bins. -/
def size (b : Bins) : ℕ := b.bins.length

/-- Modelled from the spec: `range = (lo_edges[0], hi_edges[-1])`. -/
def range (b : Bins) : Option (ℚ × ℚ) :=
  match b.bins.head?, b.bins.getLast? with
  | some x, some y => some (x.lo, y.hi)
  | _, _ => none

/-- Element-wise sum of two bins sharing the same edges. -/
def addBin (x y : Bin) : Bin := ⟨x.counts + y.counts, x.lo, x.hi, x.exposure + y.exposure⟩

/-- Element-wise sum of two binnings. -/
def addCounts (a b : Bins) : Bins := ⟨List.zipWith addBin a.bins b.bins⟩

/-- Identical-binning test used by `sum`. -/
def sameEdges (a b : Bins) : Bool :=
  decide (a.lo_edges = b.lo_edges) && decide (a.hi_edges = b.hi_edges)

/-- Modelled from the spec: `sum(bins_list)` requires every input to share
identical `lo_edges`/`hi_edges`, failing with `MismatchedBinning`
otherwise; the result has summed `counts` and `exposure`, same edges. -/
def sum : List Bins → Except String Bins
  | [] => .error "EmptyList"
  | b :: rest =>
    if rest.all (sameEdges b) then .ok (rest.foldl addCounts b)
    else .error "MismatchedBinning"

/-- Modelled from the spec: `slice(lo, hi)` keeps whole every bin whose
span intersects `[lo, hi]` under the inclusive test
`hi_edges ≥ lo ∧ lo_edges ≤ hi`. -/
def slice (b : Bins) (lo hi : ℚ) : Bins :=
  ⟨b.bins.filter fun x => decide (lo ≤ x.hi) && decide (x.lo ≤ hi)⟩

/-- Modelled from the spec: split into maximal runs of bins with
`hi_edges[i] == lo_edges[i+1]`; a strict gap starts a new run. -/
def contiguousRuns : List Bin → List (List Bin)
  | [] => []
  | [x] => [[x]]
  | x :: y :: rest =>
    match contiguousRuns (y :: rest) with
    | [] => [[x]]
    | run :: runs =>
      if x.hi = y.lo then (x :: run) :: runs else [x] :: run :: runs

/-- Modelled from the spec: `contiguous_bins()` returns one standalone
sub-Bins per maximal contiguous run. -/
def contiguous_bins (b : Bins) : List Bins := (contiguousRuns b.bins).map Bins.mk

/-- Number of strict gaps between successive bins. -/
def countGaps : List Bin → ℕ
  | [] => 0
  | [_] => 0
  | x :: y :: rest => (if x.hi = y.lo then 0 else 1) + countGaps (y :: rest)

theorem contiguousRuns_shape :
    ∀ (y : Bin) (rest : List Bin),
      ∃ tl runs, contiguousRuns (y :: rest) = (y :: tl) :: runs := by
  intro y rest
  induction rest generalizing y with
  | nil => exact ⟨[], [], rfl⟩
  | cons z rs ih =>
    obtain ⟨tl, runs, heq⟩ := ih z
    by_cases h : y.hi = z.lo
    · exact ⟨z :: tl, runs, by simp [contiguousRuns, heq, h]⟩
    · exact ⟨[], (z :: tl) :: runs, by simp [contiguousRuns, heq, h]⟩

theorem contiguousRuns_length :
    ∀ l : List Bin, l ≠ [] → (contiguousRuns l).length = countGaps l + 1 := by
  intro l
  induction l with
  | nil => intro h; exact absurd rfl h
  | cons x t ih =>
    intro _
    cases t with
    | nil => simp [contiguousRuns, countGaps]
    | cons y rest =>
      obtain ⟨tl, runs, heq⟩ := contiguousRuns_shape y rest
      have hlen := ih (List.cons_ne_nil _ _)
      rw [heq] at hlen
      by_cases h : x.hi = y.lo
      · simp only [contiguousRuns, heq, h, if_pos rfl, countGaps]
        simpa [h] using hlen
      · simp only [contiguousRuns, heq, countGaps, if_neg h]
        simp only [List.length_cons] at hlen ⊢
        omega

theorem contiguousRuns_join :
    ∀ l : List Bin, (contiguousRuns l).flatten = l := by
  intro l
  induction l with
  | nil => rfl
  | cons x t ih =>
    cases t with
    | nil => simp [contiguousRuns]
    | cons y rest =>
      obtain ⟨tl, runs, heq⟩ := contiguousRuns_shape y rest
      rw [heq] at ih
      by_cases h : x.hi = y.lo
      · simp only [contiguousRuns, heq, if_pos h, List.flatten]
        simpa using ih
      · simp only [contiguousRuns, heq, if_neg h, List.flatten]
        simpa using ih

theorem contiguousRuns_runs_contiguous :
    ∀ l : List Bin, ∀ run ∈ contiguousRuns l,
      run ≠ [] ∧ run.Chain' fun a c => a.hi = c.lo := by
  intro l
  induction l with
  | nil => intro run h; simp [contiguousRuns] at h
  | cons x t ih =>
    cases t with
    | nil =>
      intro run h
      simp only [contiguousRuns, List.mem_singleton] at h
      subst h
      exact ⟨List.cons_ne_nil _ _, by simp⟩
    | cons y rest =>
      obtain ⟨tl, runs, heq⟩ := contiguousRuns_shape y rest
      intro run hrun
      by_cases h : x.hi = y.lo
      · simp only [contiguousRuns, heq, if_pos h, List.mem_cons] at hrun
        rcases hrun with rfl | hrun
        · have hy := ih (y :: tl) (heq ▸ List.mem_cons_self _ _)
          refine ⟨List.cons_ne_nil _ _, ?_⟩
          rw [List.chain'_cons]
          exact ⟨h, hy.2⟩
        · exact ih run (heq ▸ List.mem_cons_of_mem _ hrun)
      · simp only [contiguousRuns, heq, if_neg h, List.mem_cons] at hrun
        rcases hrun with rfl | rfl | hrun
        · exact ⟨List.cons_ne_nil _ _, by simp⟩
        · exact ih (y :: tl) (by rw [heq]; exact List.mem_cons_self _ _)
        · exact ih run (by rw [heq]; exact List.mem_cons_of_mem _ hrun)

end Bins

/-- EnergyBins built in the notebook: counts `[1,3,5,2]`, edges
`[10,35,100,250,600]`, exposure `9.67` per bin. -/
def exampleEnergyBins : Bins :=
  ⟨[⟨1, 10, 35, 967/100⟩, ⟨3, 35, 100, 967/100⟩,
    ⟨5, 100, 250, 967/100⟩, ⟨2, 250, 600, 967/100⟩]⟩

/-- C2: summing a binning with itself doubles `counts` and `exposure`
element-wise and leaves both edge arrays unchanged. -/
theorem bins_sum_self (b : Bins) :
    ∃ s, Bins.sum [b, b] = Except.ok s ∧
      s.counts = b.counts.map (fun c => 2 * c) ∧
      s.exposure = b.exposure.map (fun e => 2 * e) ∧
      s.lo_edges = b.lo_edges ∧ s.hi_edges = b.hi_edges := by
  have hself : (Bins.addCounts b b).bins =
      b.bins.map fun x => ⟨2 * x.counts, x.lo, x.hi, 2 * x.exposure⟩ := by
    show List.zipWith Bins.addBin b.bins b.bins = _
    induction b.bins with
    | nil => rfl
    | cons x t iht =>
      simp only [List.zipWith_cons_cons, List.map_cons, iht]
      simp [Bins.addBin, two_mul]
  refine ⟨Bins.addCounts b b, ?_, ?_, ?_, ?_, ?_⟩
  · simp [Bins.sum, Bins.sameEdges]
  · simp [Bins.counts, hself, List.map_map, Function.comp]
  · simp [Bins.exposure, hself, List.map_map, Function.comp]
  · simp [Bins.lo_edges, hself, List.map_map, Function.comp]
  · simp [Bins.hi_edges, hself, List.map_map, Function.comp]

/-- C4: `slice(lo, hi)` returns, whole and in order, exactly the bins
passing the inclusive overlap test `hi_edges ≥ lo ∧ lo_edges ≤ hi`; on the
notebook's energy binning, slicing to `(50, 200)` yields range
`(35, 250)`. -/
theorem bins_slice_spec :
    (∀ (b : Bins) (lo hi : ℚ) (x : Bin),
        x ∈ (b.slice lo hi).bins ↔ x ∈ b.bins ∧ lo ≤ x.hi ∧ x.lo ≤ hi) ∧
      (∀ (b : Bins) (lo hi : ℚ), (b.slice lo hi).bins.Sublist b.bins) ∧
      (exampleEnergyBins.slice 50 200).range = some (35, 250) := by
  refine ⟨?_, ?_, ?_⟩
  · intro b lo hi x
    simp [Bins.slice, List.mem_filter, and_assoc]
  · intro b lo hi
    exact List.filter_sublist _
  · decide

/-- C5: `contiguous_bins()` splits the bins into `gaps + 1` runs (so a
gap-free binning yields one run and a single gap yields two), the runs
concatenate back to the original bin sequence in order, and every run is a
nonempty standalone Bins whose successive edges are contiguous. -/
theorem bins_contiguous_spec (b : Bins) (hne : b.bins ≠ []) :
    b.contiguous_bins.length = Bins.countGaps b.bins + 1 ∧
      (b.contiguous_bins.map Bins.bins).flatten = b.bins ∧
      ∀ s ∈ b.contiguous_bins, s.bins ≠ [] ∧ s.bins.Chain' fun x y => x.hi = y.lo := by
  refine ⟨?_, ?_, ?_⟩
  · simp [Bins.contiguous_bins, Bins.contiguousRuns_length b.bins hne]
  · have hid : ∀ rs : List (List Bin), rs.map (fun r => (Bins.mk r).bins) = rs := by
      intro rs
      induction rs with
      | nil => rfl
      | cons r t iht => simp [iht]
    rw [Bins.contiguous_bins, List.map_map]
    show ((Bins.contiguousRuns b.bins).map fun r => (Bins.mk r).bins).flatten = b.bins
    rw [hid]
    exact Bins.contiguousRuns_join b.bins
  · intro s hs
    simp only [Bins.contiguous_bins, List.mem_map] at hs
    obtain ⟨run, hrun, rfl⟩ := hs
    exact Bins.contiguousRuns_runs_contiguous b.bins run hrun

theorem bins_contiguous_spec_witness :
    exampleEnergyBins.bins ≠ [] ∧
      (exampleEnergyBins.contiguous_bins.length =
          Bins.countGaps exampleEnergyBins.bins + 1 ∧
        (exampleEnergyBins.contiguous_bins.map Bins.bins).flatten = exampleEnergyBins.bins ∧
        ∀ s ∈ exampleEnergyBins.contiguous_bins,
          s.bins ≠ [] ∧ s.bins.Chain' fun x y => x.hi = y.lo) :=
  ⟨by decide, bins_contiguous_spec exampleEnergyBins (by decide)⟩

/-- Modelled from the spec: `TimeEnergyBins` (implementation not shipped
in this repository snapshot) — a 2D `counts[T,C]` array with a time axis
`(tstart, tstop, exposure)` and an energy axis `(emin, emax)`; exposure is
per time bin only. -/
structure TimeEnergyBins where
  counts : List (List ℕ)
  tstart : List ℚ
  tstop : List ℚ
  exposure : List ℚ
  emin : List ℚ
  emax : List ℚ
deriving DecidableEq, Repr

namespace TimeEnergyBins

/-- Number of time bins. -/
def numtimes (x : TimeEnergyBins) : ℕ := x.tstart.length

/-- Number of energy channels. -/
def numchans (x : TimeEnergyBins) : ℕ := x.emin.length

/-- Construction-time shape invariant: all parallel arrays agree and the
counts matrix is rectangular. -/
def isValid (x : TimeEnergyBins) : Prop :=
  x.counts.length = x.numtimes ∧ x.tstop.length = x.numtimes ∧
    x.exposure.length = x.numtimes ∧ x.emax.length = x.numchans ∧
    ∀ row ∈ x.counts, row.length = x.numchans

instance : DecidablePred isValid := fun x =>
  inferInstanceAs (Decidable (x.counts.length = x.numtimes ∧ x.tstop.length = x.numtimes ∧
    x.exposure.length = x.numtimes ∧ x.emax.length = x.numchans ∧
    ∀ row ∈ x.counts, row.length = x.numchans))

/-- Modelled from the spec: `integrate_energy()` sums counts over the
channel axis per time bin, keeping `tstart/tstop/exposure`. -/
def integrate_energy (x : TimeEnergyBins) : TimeBins :=
  ⟨(x.counts.zip (x.tstart.zip (x.tstop.zip x.exposure))).map
    fun p => ⟨p.1.sum, p.2.1, p.2.2.1, p.2.2.2⟩⟩

/-- Modelled from the spec: `integrate_time()` sums counts over the time
axis per channel; the per-channel exposure is the total of the per-time-bin
exposures. -/
def integrate_time (x : TimeEnergyBins) : EnergyBins :=
  let colsums := (List.range x.numchans).map fun c =>
    (x.counts.map fun row => row.getD c 0).sum
  ⟨(colsums.zip (x.emin.zip x.emax)).map fun p => ⟨p.1, p.2.1, p.2.2, x.exposure.sum⟩⟩

theorem zip4_fields :
    ∀ (a : List (List ℕ)) (b c d : List ℚ),
      a.length = b.length → a.length = c.length → a.length = d.length →
      ((a.zip (b.zip (c.zip d))).map fun p =>
          (⟨p.1.sum, p.2.1, p.2.2.1, p.2.2.2⟩ : Bin)).map Bin.counts = a.map List.sum ∧
        ((a.zip (b.zip (c.zip d))).map fun p =>
          (⟨p.1.sum, p.2.1, p.2.2.1, p.2.2.2⟩ : Bin)).map Bin.lo = b ∧
        ((a.zip (b.zip (c.zip d))).map fun p =>
          (⟨p.1.sum, p.2.1, p.2.2.1, p.2.2.2⟩ : Bin)).map Bin.hi = c ∧
        ((a.zip (b.zip (c.zip d))).map fun p =>
          (⟨p.1.sum, p.2.1, p.2.2.1, p.2.2.2⟩ : Bin)).map Bin.exposure = d := by
  intro a
  induction a with
  | nil =>
    intro b c d hb hc hd
    cases b with
    | cons _ _ => exact absurd hb (by simp)
    | nil =>
      cases c with
      | cons _ _ => exact absurd hc (by simp)
      | nil =>
        cases d with
        | cons _ _ => exact absurd hd (by simp)
        | nil => simp
  | cons r a' ih =>
    intro b c d hb hc hd
    cases b with
    | nil => exact absurd hb (by simp)
    | cons bx b' =>
      cases c with
      | nil => exact absurd hc (by simp)
      | cons cx c' =>
        cases d with
        | nil => exact absurd hd (by simp)
        | cons dx d' =>
          simp only [List.length_cons, Nat.succ_inj] at hb hc hd
          obtain ⟨h1, h2, h3, h4⟩ := ih b' c' d' hb hc hd
          simp only [List.zip_cons_cons, List.map_cons]
          exact ⟨by rw [h1], by rw [h2], by rw [h3], by rw [h4]⟩

theorem zip3_fields :
    ∀ (a : List ℕ) (b c : List ℚ) (E : ℚ),
      a.length = b.length → a.length = c.length →
      ((a.zip (b.zip c)).map fun p =>
          (⟨p.1, p.2.1, p.2.2, E⟩ : Bin)).map Bin.counts = a ∧
        ((a.zip (b.zip c)).map fun p =>
          (⟨p.1, p.2.1, p.2.2, E⟩ : Bin)).map Bin.lo = b ∧
        ((a.zip (b.zip c)).map fun p =>
          (⟨p.1, p.2.1, p.2.2, E⟩ : Bin)).map Bin.hi = c ∧
        ((a.zip (b.zip c)).map fun p =>
          (⟨p.1, p.2.1, p.2.2, E⟩ : Bin)).map Bin.exposure =
          List.replicate a.length E := by
  intro a
  induction a with
  | nil =>
    intro b c E hb hc
    cases b with
    | cons _ _ => exact absurd hb (by simp)
    | nil =>
      cases c with
      | cons _ _ => exact absurd hc (by simp)
      | nil => simp
  | cons r a' ih =>
    intro b c E hb hc
    cases b with
    | nil => exact absurd hb (by simp)
    | cons bx b' =>
      cases c with
      | nil => exact absurd hc (by simp)
      | cons cx c' =>
        simp only [List.length_cons, Nat.succ_inj] at hb hc
        obtain ⟨h1, h2, h3, h4⟩ := ih b' c' E hb hc
        simp only [List.zip_cons_cons, List.map_cons, List.length_cons,
          List.replicate_succ]
        exact ⟨by rw [h1], by rw [h2], by rw [h3], by rw [h4]⟩

end TimeEnergyBins

/-- TimeEnergyBins built in the notebook: 4 time bins by 2 channels. -/
def exampleTEB : TimeEnergyBins :=
  ⟨[[1, 10], [3, 20], [5, 3], [2, 7]],
    [1, 2, 3, 4], [2, 3, 4, 5],
    [99/100, 98/100, 97/100, 96/100],
    [35, 150], [150, 350]⟩

/-- C3: `integrate_energy()` produces a TimeBins whose counts are the
per-time-bin sums over channels with `tstart/tstop/exposure` unchanged, and
`integrate_time()` produces an EnergyBins whose channel `c` count is the
sum over time bins of `counts[t, c]` (with `emin/emax` as edges and the
total exposure per channel). -/
theorem teb_integrate_spec (x : TimeEnergyBins) (hv : x.isValid) :
    x.integrate_energy.counts = x.counts.map List.sum ∧
      x.integrate_energy.lo_edges = x.tstart ∧
      x.integrate_energy.hi_edges = x.tstop ∧
      x.integrate_energy.exposure = x.exposure ∧
      (∀ c, c < x.numchans →
        x.integrate_time.counts[c]? =
          some ((x.counts.map fun row => row.getD c 0).sum)) ∧
      x.integrate_time.lo_edges = x.emin ∧
      x.integrate_time.hi_edges = x.emax ∧
      x.integrate_time.exposure = List.replicate x.numchans x.exposure.sum := by
  obtain ⟨hT, hstop, hexp, hmax, _⟩ := hv
  obtain ⟨e1, e2, e3, e4⟩ := TimeEnergyBins.zip4_fields x.counts x.tstart x.tstop x.exposure
    (hT.trans rfl) (by rw [hT, hstop]) (by rw [hT, hexp])
  have hcol : ((List.range x.numchans).map fun c =>
      (x.counts.map fun row => row.getD c 0).sum).length = x.numchans := by
    simp
  obtain ⟨t1, t2, t3, t4⟩ := TimeEnergyBins.zip3_fields
    ((List.range x.numchans).map fun c => (x.counts.map fun row => row.getD c 0).sum)
    x.emin x.emax x.exposure.sum (by rw [hcol]; rfl) (by rw [hcol, hmax])
  refine ⟨e1, e2, e3, e4, ?_, t2, t3, ?_⟩
  · intro c hc
    show (TimeEnergyBins.integrate_time x).counts[c]? = _
    have : (TimeEnergyBins.integrate_time x).counts =
        (List.range x.numchans).map fun c => (x.counts.map fun row => row.getD c 0).sum :=
      t1
    rw [this, List.getElem?_map, List.getElem?_range hc]
    rfl
  · rw [show (TimeEnergyBins.integrate_time x).exposure = _ from t4, hcol]

theorem teb_integrate_spec_witness :
    exampleTEB.isValid ∧
      (exampleTEB.integrate_energy.counts = exampleTEB.counts.map List.sum ∧
        exampleTEB.integrate_energy.lo_edges = exampleTEB.tstart ∧
        exampleTEB.integrate_energy.hi_edges = exampleTEB.tstop ∧
        exampleTEB.integrate_energy.exposure = exampleTEB.exposure ∧
        (∀ c, c < exampleTEB.numchans →
          exampleTEB.integrate_time.counts[c]? =
            some ((exampleTEB.counts.map fun row => row.getD c 0).sum)) ∧
        exampleTEB.integrate_time.lo_edges = exampleTEB.emin ∧
        exampleTEB.integrate_time.hi_edges = exampleTEB.emax ∧
        exampleTEB.integrate_time.exposure =
          List.replicate exampleTEB.numchans exampleTEB.exposure.sum) :=
  ⟨by decide, teb_integrate_spec exampleTEB (by decide)⟩

/-- Modelled from the spec: one event — an arrival time with a PHA channel
attribute. -/
structure Event where
  time : ℚ
  channel : ℕ
deriving DecidableEq, Repr

namespace Event

/-- Sort key for events: ascending arrival time. -/
def le (a b : Event) : Prop := a.time ≤ b.time

instance : DecidableRel le := fun a b => inferInstanceAs (Decidable (a.time ≤ b.time))

instance : IsTotal Event le := ⟨fun a b => le_total a.time b.time⟩

instance : IsTrans Event le := ⟨fun _ _ _ hab hbc => le_trans hab hbc⟩

end Event

/-- Modelled from the spec: `EventList` (implementation not shipped in this
repository snapshot) — a time-sorted sequence of `(time, channel)` events
plus the channel calibration table `emin/emax`. -/
structure EventList where
  events : List Event
  emin : List ℚ
  emax : List ℚ
deriving DecidableEq, Repr

namespace EventList

/-- Number of events. -/
def size (el : EventList) : ℕ := el.events.length

/-- Number of calibrated channels. -/
def numchans (el : EventList) : ℕ := el.emin.length

/-- Modelled from the spec: `from_lists(times, phas, emin, emax)` validates
array lengths and that every referenced channel fits the calibration
table (else `InvalidCalibration`), then stores the events sorted
ascending by arrival time. -/
def from_lists (times : List ℚ) (phas : List ℕ) (emin emax : List ℚ) :
    Except String EventList :=
  if times.length ≠ phas.length ∨ emin.length ≠ emax.length then
    .error "MismatchedLengths"
  else if (times.zip phas).all fun p => decide (p.2 < emin.length) then
    .ok ⟨List.insertionSort Event.le ((times.zip phas).map fun p => ⟨p.1, p.2⟩),
      emin, emax⟩
  else .error "InvalidCalibration"

/-- Modelled from the spec: `time_range` is `(first event time, last event
time)` of the sorted event sequence. -/
def time_range (el : EventList) : Option (ℚ × ℚ) :=
  match el.events.head?, el.events.getLast? with
  | some a, some b => some (a.time, b.time)
  | _, _ => none

/-- Append the events of a later input, dropping those already present in
an earlier input (the `force_unique` deduplication: an event duplicated
across inputs is kept only at its first occurrence). -/
def appendUnique (acc new : List Event) : List Event :=
  acc ++ new.filter fun e => !(acc.contains e)

/-- Modelled from the spec: `merge(eventlists, force_unique)` requires
identical calibration tables (else `MismatchedCalibration`), concatenates
the events — dropping cross-input duplicates when `force_unique` — and
sorts by time. -/
def merge (els : List EventList) (force_unique : Bool) : Except String EventList :=
  match els with
  | [] => .error "EmptyList"
  | first :: rest =>
    if rest.all fun el => decide (el.emin = first.emin) && decide (el.emax = first.emax) then
      let evts := (first :: rest).foldl
        (fun acc el => if force_unique then appendUnique acc el.events
          else acc ++ el.events) []
      .ok ⟨List.insertionSort Event.le evts, first.emin, first.emax⟩
    else .error "MismatchedCalibration"

end EventList

/-- C8: merging a list with itself under `force_unique` collapses the
duplicate copy, giving back the original size, while a plain merge doubles
the size. -/
theorem eventlist_merge_self (el : EventList) :
    ∃ m₁ m₂, EventList.merge [el, el] true = Except.ok m₁ ∧ m₁.size = el.size ∧
      EventList.merge [el, el] false = Except.ok m₂ ∧ m₂.size = 2 * el.size := by
  have hcal : [el].all (fun x => decide (x.emin = el.emin) && decide (x.emax = el.emax)) =
      true := by simp
  have hu0 : EventList.appendUnique [] el.events = el.events := by
    rw [EventList.appendUnique]
    have : el.events.filter (fun e => !(List.contains [] e)) = el.events := by
      apply List.filter_eq_self.mpr
      intro e _
      simp [List.contains]
    rw [this, List.nil_append]
  have hu1 : EventList.appendUnique el.events el.events = el.events := by
    rw [EventList.appendUnique]
    have : el.events.filter (fun e => !(el.events.contains e)) = [] := by
      apply List.filter_eq_nil_iff.mpr
      intro e he
      simp [he]
    rw [this, List.append_nil]
  refine ⟨⟨List.insertionSort Event.le el.events, el.emin, el.emax⟩,
    ⟨List.insertionSort Event.le (el.events ++ el.events), el.emin, el.emax⟩,
    ?_, ?_, ?_, ?_⟩
  · show EventList.merge [el, el] true = _
    rw [EventList.merge, if_pos hcal]
    simp [hu0, hu1]
  · show (List.insertionSort Event.le el.events).length = el.events.length
    exact (List.perm_insertionSort Event.le el.events).length_eq
  · show EventList.merge [el, el] false = _
    rw [EventList.merge, if_pos hcal]
    simp
  · show (List.insertionSort Event.le (el.events ++ el.events)).length = 2 * el.events.length
    rw [(List.perm_insertionSort Event.le _).length_eq, List.length_append]
    omega

theorem sorted_head_le (x : Event) (t : List Event) (hs : (x :: t).Sorted Event.le) :
    ∀ a ∈ x :: t, x.time ≤ a.time := by
  intro a ha
  rcases List.mem_cons.mp ha with rfl | ha
  · exact le_refl _
  · exact (List.sorted_cons.mp hs).1 a ha

theorem sorted_le_getLast :
    ∀ (l : List Event) (hl : l ≠ []), l.Sorted Event.le →
      ∀ a ∈ l, a.time ≤ (l.getLast hl).time := by
  intro l
  induction l with
  | nil => intro hl; exact absurd rfl hl
  | cons x t ih =>
    intro _ hs a ha
    cases t with
    | nil =>
      rcases List.mem_cons.mp ha with rfl | ha
      · exact le_refl _
      · exact absurd ha (List.not_mem_nil a)
    | cons y t' =>
      rw [List.getLast_cons (List.cons_ne_nil y t')]
      rcases List.mem_cons.mp ha with rfl | ha
      · exact sorted_head_le a (y :: t') hs
          ((y :: t').getLast (List.cons_ne_nil y t'))
          (List.mem_cons_of_mem a (List.getLast_mem (List.cons_ne_nil y t')))
      · exact ih (List.cons_ne_nil y t') (List.sorted_cons.mp hs).2 a ha

/-- C9: `from_lists` accepts arrival times in any order and normalizes:
the constructed event sequence is sorted ascending by time, its times are
a permutation of the input times, and `time_range` is exactly the minimum
and maximum of the input times. -/
theorem eventlist_from_lists_sorted (times : List ℚ) (phas : List ℕ)
    (emin emax : List ℚ) (el : EventList)
    (h : EventList.from_lists times phas emin emax = Except.ok el) :
    el.events.Sorted Event.le ∧
      (el.events.map Event.time).Perm times ∧
      (times ≠ [] → ∃ mn mx, el.time_range = some (mn, mx) ∧ mn ∈ times ∧ mx ∈ times ∧
        ∀ t ∈ times, mn ≤ t ∧ t ≤ mx) := by
  rw [EventList.from_lists] at h
  split_ifs at h with h1 h2
  rw [Except.ok.injEq] at h
  subst h
  · have hlen : times.length = phas.length := by
      rcases not_or.mp h1 with ⟨ht, _⟩
      exact not_ne_iff.mp ht
    have hsorted : (List.insertionSort Event.le
        ((times.zip phas).map fun p => ⟨p.1, p.2⟩)).Sorted Event.le :=
      List.sorted_insertionSort Event.le _
    have hmapped : ((List.insertionSort Event.le
        ((times.zip phas).map fun p => (⟨p.1, p.2⟩ : Event))).map Event.time).Perm times := by
      refine ((List.perm_insertionSort Event.le _).map Event.time).trans ?_
      rw [List.map_map]
      have : (Event.time ∘ fun p : ℚ × ℕ => (⟨p.1, p.2⟩ : Event)) = Prod.fst := rfl
      rw [this, List.map_fst_zip times phas (le_of_eq hlen)]
    refine ⟨hsorted, hmapped, ?_⟩
    intro hne
    set evts := List.insertionSort Event.le
      ((times.zip phas).map fun p => (⟨p.1, p.2⟩ : Event)) with hevts
    have hevne : evts ≠ [] := by
      intro hcontra
      have hlen2 := hmapped.length_eq
      rw [hcontra] at hlen2
      simp only [List.map_nil, List.length_nil] at hlen2
      exact hne (List.eq_nil_of_length_eq_zero hlen2.symm)
    obtain ⟨x, t, hxt⟩ := List.exists_cons_of_ne_nil hevne
    have hmemt : ∀ q ∈ times, ∃ a ∈ evts, a.time = q := by
      intro q hq
      have : q ∈ evts.map Event.time := hmapped.mem_iff.mpr hq
      obtain ⟨a, ha, haq⟩ := List.mem_map.mp this
      exact ⟨a, ha, haq⟩
    refine ⟨x.time, (evts.getLast hevne).time, ?_, ?_, ?_, ?_⟩
    · show EventList.time_range ⟨evts, emin, emax⟩ = _
      rw [EventList.time_range]
      simp only [hxt, List.head?_cons, List.getLast?_eq_getLast _ (List.cons_ne_nil x t)]
    · exact hmapped.mem_iff.mp (List.mem_map_of_mem Event.time (hxt ▸ List.mem_cons_self _ _))
    · exact hmapped.mem_iff.mp (List.mem_map_of_mem Event.time (List.getLast_mem hevne))
    · intro q hq
      obtain ⟨a, ha, rfl⟩ := hmemt q hq
      constructor
      · exact sorted_head_le x t (hxt ▸ hsorted) a (hxt ▸ ha)
      · exact sorted_le_getLast evts hevne hsorted a ha

theorem eventlist_from_lists_sorted_witness :
    ∃ el, EventList.from_lists [2, 1] [0, 1] [10, 35] [35, 100] = Except.ok el ∧
      (el.events.Sorted Event.le ∧
        (el.events.map Event.time).Perm [2, 1] ∧
        (([2, 1] : List ℚ) ≠ [] → ∃ mn mx, el.time_range = some (mn, mx) ∧
          mn ∈ ([2, 1] : List ℚ) ∧ mx ∈ ([2, 1] : List ℚ) ∧
          ∀ t ∈ ([2, 1] : List ℚ), mn ≤ t ∧ t ≤ mx)) :=
  ⟨⟨[⟨1, 1⟩, ⟨2, 0⟩], [10, 35], [35, 100]⟩, by decide,
    eventlist_from_lists_sorted [2, 1] [0, 1] [10, 35] [35, 100]
      ⟨[⟨1, 1⟩, ⟨2, 0⟩], [10, 35], [35, 100]⟩ (by decide)⟩

/-- Modelled from the spec: membership of time `x` in time bin `t` of an
edge array — half-open `[edges[t], edges[t+1])`, with the final bin closed
on the right so the histogram spans the full edge range. -/
def inTimeBinB (edges : List ℚ) (t : ℕ) (x : ℚ) : Bool :=
  decide (t + 1 < edges.length) && decide (edges.getD t 0 ≤ x) &&
    (decide (x < edges.getD (t + 1) 0) ||
      (decide (t + 2 = edges.length) && decide (x = edges.getD (t + 1) 0)))

/-- Executable strictly-ascending check for edge arrays. -/
def ltChainB : List ℚ → Bool
  | [] => true
  | [_] => true
  | a :: b :: t => decide (a < b) && ltChainB (b :: t)

theorem ltChainB_iff : ∀ l : List ℚ, ltChainB l = true ↔ l.Chain' (· < ·) := by
  intro l
  induction l with
  | nil => simp [ltChainB]
  | cons a t ih =>
    cases t with
    | nil => simp [ltChainB]
    | cons b t' =>
      rw [List.chain'_cons, ← ih]
      simp [ltChainB]

/-- Modelled from the spec: `bin(algorithm, ...)` obtains the time bin
edges from the pluggable binning function applied to the event times, then
histograms events per channel per time bin into a `TimeEnergyBins` with
`tstart/tstop` the successive edge pairs.  Exposure is modelled as the bin
width; the deadtime model is an external collaborator and no verified
property depends on it. -/
def EventList.bin (el : EventList) (alg : List ℚ → List ℚ) : TimeEnergyBins :=
  let edges := alg (el.events.map Event.time)
  let T := edges.length - 1
  { counts := (List.range T).map fun t => (List.range el.numchans).map fun c =>
      (el.events.filter fun e =>
        inTimeBinB edges t e.time && decide (e.channel = c)).length
    tstart := edges.take T
    tstop := edges.drop 1
    exposure := List.zipWith (fun a b => b - a) (edges.take T) (edges.drop 1)
    emin := el.emin
    emax := el.emax }

/-- Grand total of the counts matrix. -/
def TimeEnergyBins.totalCounts (x : TimeEnergyBins) : ℕ := (x.counts.map List.sum).sum

theorem sum_map_addfun (l : List ℕ) (f g : ℕ → ℕ) :
    (l.map fun t => f t + g t).sum = (l.map f).sum + (l.map g).sum := by
  induction l with
  | nil => rfl
  | cons a t ih =>
    simp only [List.map_cons, List.sum_cons, ih]
    omega

theorem sum_map_indicator (l : List ℕ) (p : ℕ → Bool) :
    (l.map fun t => if p t then 1 else 0).sum = (l.filter p).length := by
  induction l with
  | nil => rfl
  | cons a t ih =>
    simp only [List.map_cons, List.sum_cons, List.filter_cons]
    by_cases h : p a = true
    · simp [h, ih]
      omega
    · simp [h, ih]

theorem length_eq_one_of_unique (l : List ℕ) (k : ℕ) (hnd : l.Nodup) (hk : k ∈ l)
    (hall : ∀ x ∈ l, x = k) : l.length = 1 := by
  cases l with
  | nil => exact absurd hk (List.not_mem_nil k)
  | cons a t =>
    cases t with
    | nil => rfl
    | cons b t' =>
      have ha := hall a (List.mem_cons_self _ _)
      have hb := hall b (List.mem_cons_of_mem _ (List.mem_cons_self _ _))
      rw [List.nodup_cons] at hnd
      refine absurd ?_ hnd.1
      rw [ha, hb]
      exact List.mem_cons_self _ _

theorem filter_range_length_one (N k : ℕ) (p : ℕ → Bool) (hk : k < N) (hp : p k = true)
    (huniq : ∀ t, t < N → p t = true → t = k) :
    ((List.range N).filter p).length = 1 := by
  refine length_eq_one_of_unique _ k (List.Nodup.filter p (List.nodup_range N)) ?_ ?_
  · exact List.mem_filter.mpr ⟨List.mem_range.mpr hk, hp⟩
  · intro x hx
    have hx' := List.mem_filter.mp hx
    exact huniq x (List.mem_range.mp hx'.1) hx'.2

theorem map_nat_congr (l : List ℕ) (f g : ℕ → ℕ) (h : ∀ t, f t = g t) :
    l.map f = l.map g := by
  induction l with
  | nil => rfl
  | cons a t ih => simp [h a, ih]

theorem filter_length_partition :
    ∀ (l : List Event) (N : ℕ) (P : ℕ → Event → Bool),
      (∀ e ∈ l, ((List.range N).filter fun t => P t e).length = 1) →
      ((List.range N).map fun t => (l.filter (P t)).length).sum = l.length := by
  intro l
  induction l with
  | nil => intro N P _; simp
  | cons e l ih =>
    intro N P hp
    have he := hp e (List.mem_cons_self _ _)
    have hl : ∀ e' ∈ l, ((List.range N).filter fun t => P t e').length = 1 :=
      fun e' he' => hp e' (List.mem_cons_of_mem _ he')
    have hstep : ∀ t, ((e :: l).filter (P t)).length =
        (if P t e then 1 else 0) + (l.filter (P t)).length := by
      intro t
      rw [List.filter_cons]
      by_cases h : P t e = true
      · simp [h]
        omega
      · simp [h]
    calc ((List.range N).map fun t => ((e :: l).filter (P t)).length).sum
        = ((List.range N).map fun t =>
            (if P t e then 1 else 0) + (l.filter (P t)).length).sum :=
          congrArg List.sum (map_nat_congr _ _ _ hstep)
      _ = ((List.range N).map fun t => if P t e then 1 else 0).sum +
            ((List.range N).map fun t => (l.filter (P t)).length).sum :=
          sum_map_addfun _ _ _
      _ = ((List.range N).filter fun t => P t e).length + l.length := by
          rw [sum_map_indicator, ih N P hl]
      _ = 1 + l.length := by rw [he]
      _ = (e :: l).length := by simp [Nat.add_comm]

theorem inTimeBinB_cons_succ (a : ℚ) (l : List ℚ) (t : ℕ) (x : ℚ) :
    inTimeBinB (a :: l) (t + 1) x = inTimeBinB l t x := by
  have h1 : (t + 1 + 1 < (a :: l).length) ↔ (t + 1 < l.length) := by
    simp only [List.length_cons]
    omega
  have h2 : (t + 1 + 2 = (a :: l).length) ↔ (t + 2 = l.length) := by
    simp only [List.length_cons]
    omega
  simp only [inTimeBinB, List.getD_cons_succ, h1, h2]

theorem exists_timebin :
    ∀ (tail : List ℚ) (lo x : ℚ), tail ≠ [] → (lo :: tail).Chain' (· < ·) →
      lo ≤ x → x ≤ (lo :: tail).getLast?.getD 0 →
      ∃ t, t < (lo :: tail).length - 1 ∧ inTimeBinB (lo :: tail) t x = true := by
  intro tail
  induction tail with
  | nil => intro lo x h; exact absurd rfl h
  | cons hi2 rest ih =>
    intro lo x _ hchain hlox hlast
    by_cases hx : x < hi2
    · refine ⟨0, by simp, ?_⟩
      have hlt : 0 + 1 < (lo :: hi2 :: rest).length := by simp
      simp [inTimeBinB, hlt, hlox, hx]
    · cases rest with
      | nil =>
        have hxle : x ≤ hi2 := by simpa using hlast
        have hxeq : x = hi2 := le_antisymm hxle (not_lt.mp hx)
        subst hxeq
        refine ⟨0, by simp, ?_⟩
        simp [inTimeBinB, hlox]
      | cons h3 r3 =>
        have hch' : (hi2 :: h3 :: r3).Chain' (· < ·) := (List.chain'_cons.mp hchain).2
        have hlast' : x ≤ (hi2 :: h3 :: r3).getLast?.getD 0 := by
          rwa [List.getLast?_cons_cons] at hlast
        obtain ⟨t, ht, hbin⟩ :=
          ih hi2 x (List.cons_ne_nil _ _) hch' (not_lt.mp hx) hlast'
        refine ⟨t + 1, ?_, ?_⟩
        · simp only [List.length_cons] at ht ⊢
          omega
        · rwa [inTimeBinB_cons_succ]

theorem timebin_unique (edges : List ℚ) (hchain : edges.Chain' (· < ·)) (x : ℚ)
    (t1 t2 : ℕ) (hlt : t1 < t2) (h1 : inTimeBinB edges t1 x = true)
    (h2 : inTimeBinB edges t2 x = true) : False := by
  simp only [inTimeBinB, Bool.and_eq_true, Bool.or_eq_true, decide_eq_true_eq] at h1 h2
  obtain ⟨⟨ht1len, hlo1⟩, hhi1⟩ := h1
  obtain ⟨⟨ht2len, hlo2⟩, hhi2⟩ := h2
  have hpair := List.chain'_iff_pairwise.mp hchain
  rcases hhi1 with hhi1 | ⟨hlen1, _⟩
  · have hmono : edges.getD (t1 + 1) 0 ≤ edges.getD t2 0 := by
      have h1' : t1 + 1 < edges.length := by omega
      have h2' : t2 < edges.length := by omega
      rw [List.getD_eq_getElem _ _ h1', List.getD_eq_getElem _ _ h2']
      rcases Nat.lt_or_ge (t1 + 1) t2 with hc | hc
      · exact le_of_lt (List.pairwise_iff_getElem.mp hpair _ _ h1' h2' hc)
      · have : t1 + 1 = t2 := by omega
        subst this
        exact le_refl _
    have : x < x := lt_of_lt_of_le (lt_of_lt_of_le hhi1 hmono) hlo2
    exact absurd this (lt_irrefl x)
  · omega

/-- Event list used for the concrete binning witness. -/
def exampleEL : EventList := ⟨[⟨0, 0⟩, ⟨1, 1⟩], [10, 35], [35, 100]⟩

/-- Constant binning function producing the edges `[0, 1, 2]`. -/
def exampleAlg : List ℚ → List ℚ := fun _ => [0, 1, 2]

/-- C10: when the binning function returns strictly ascending edges
spanning every event time, `bin()` keeps one row per produced time bin
(rows of zero counts included — the counts matrix and the time axis both
have `edges − 1` entries), and the grand total of the counts matrix equals
the event-list size. -/
theorem eventlist_bin_spec (el : EventList) (alg : List ℚ → List ℚ) (edges : List ℚ)
    (hedges : alg (el.events.map Event.time) = edges)
    (hlen : 2 ≤ edges.length) (hchain : edges.Chain' (· < ·))
    (hspan : ∀ e ∈ el.events,
      edges.head?.getD 0 ≤ e.time ∧ e.time ≤ edges.getLast?.getD 0)
    (hchan : ∀ e ∈ el.events, e.channel < el.numchans) :
    (el.bin alg).numtimes = edges.length - 1 ∧
      (el.bin alg).counts.length = edges.length - 1 ∧
      (el.bin alg).totalCounts = el.size := by
  refine ⟨?_, ?_, ?_⟩
  · show ((el.bin alg).tstart).length = edges.length - 1
    simp only [EventList.bin, hedges]
    rw [List.length_take]
    omega
  · simp only [EventList.bin, hedges]
    simp
  · show ((el.bin alg).counts.map List.sum).sum = el.events.length
    simp only [EventList.bin, hedges, List.map_map]
    have hrow : ∀ t,
        (List.sum ∘ fun t => (List.range el.numchans).map fun c =>
          (el.events.filter fun e =>
            inTimeBinB edges t e.time && decide (e.channel = c)).length) t =
        (el.events.filter fun e => inTimeBinB edges t e.time).length := by
      intro t
      show ((List.range el.numchans).map fun c => (el.events.filter fun e =>
          inTimeBinB edges t e.time && decide (e.channel = c)).length).sum = _
      have hff : ∀ c : ℕ, (el.events.filter fun e =>
          inTimeBinB edges t e.time && decide (e.channel = c)) =
          ((el.events.filter fun e => inTimeBinB edges t e.time).filter
            fun e => decide (e.channel = c)) := by
        intro c
        rw [List.filter_filter]
        apply List.filter_congr
        intro a _
        exact Bool.and_comm _ _
      calc ((List.range el.numchans).map fun c => (el.events.filter fun e =>
              inTimeBinB edges t e.time && decide (e.channel = c)).length).sum
          = ((List.range el.numchans).map fun c =>
              (((el.events.filter fun e => inTimeBinB edges t e.time).filter
                fun e => decide (e.channel = c))).length).sum :=
            congrArg List.sum (map_nat_congr _ _ _ fun c => by rw [hff c])
        _ = (el.events.filter fun e => inTimeBinB edges t e.time).length := by
            apply filter_length_partition
            intro e he
            have hmem : e ∈ el.events := (List.mem_filter.mp he).1
            refine filter_range_length_one el.numchans e.channel _
              (hchan e hmem) (by simp) ?_
            intro c _ hc
            exact (of_decide_eq_true hc).symm
    have houter : ((List.range (edges.length - 1)).map fun t =>
        (el.events.filter fun e => inTimeBinB edges t e.time).length).sum =
        el.events.length := by
      apply filter_length_partition
      intro e he
      obtain ⟨hlo, hhi⟩ := hspan e he
      obtain ⟨loE, tailE, rfl⟩ : ∃ a t, edges = a :: t := by
        cases edges with
        | nil => simp at hlen
        | cons a t => exact ⟨a, t, rfl⟩
      have htail : tailE ≠ [] := by
        intro hc
        subst hc
        simp at hlen
      have hlo' : loE ≤ e.time := by simpa using hlo
      obtain ⟨t, ht, hbin⟩ := exists_timebin tailE loE e.time htail hchain hlo' hhi
      refine filter_range_length_one _ t _ ht hbin ?_
      intro t' ht' hbin'
      rcases lt_trichotomy t' t with hc | hc | hc
      · exact (timebin_unique _ hchain e.time t' t hc hbin' hbin).elim
      · exact hc
      · exact (timebin_unique _ hchain e.time t t' hc hbin hbin').elim
    rw [map_nat_congr _ _ _ hrow]
    exact houter

theorem eventlist_bin_spec_witness :
    exampleAlg (exampleEL.events.map Event.time) = [0, 1, 2] ∧
      2 ≤ ([0, 1, 2] : List ℚ).length ∧
      ([0, 1, 2] : List ℚ).Chain' (· < ·) ∧
      (∀ e ∈ exampleEL.events,
        ([0, 1, 2] : List ℚ).head?.getD 0 ≤ e.time ∧
          e.time ≤ ([0, 1, 2] : List ℚ).getLast?.getD 0) ∧
      (∀ e ∈ exampleEL.events, e.channel < exampleEL.numchans) ∧
      ((exampleEL.bin exampleAlg).numtimes = ([0, 1, 2] : List ℚ).length - 1 ∧
        (exampleEL.bin exampleAlg).counts.length = ([0, 1, 2] : List ℚ).length - 1 ∧
        (exampleEL.bin exampleAlg).totalCounts = exampleEL.size) :=
  ⟨rfl, by decide, (ltChainB_iff _).mp (by decide), by decide, by decide,
    eventlist_bin_spec exampleEL exampleAlg [0, 1, 2] rfl (by decide)
      ((ltChainB_iff _).mp (by decide)) (by decide) (by decide)⟩

end GbmPrimitives
